import Mathlib

/-!
Verification development for the iq-slicer repository (IQ burst detector).

Shallow embedding conventions:
* Rust `f32` values are modelled as exact rationals extended with the IEEE-754
  special values (`Db.nan`, `Db.ninf`, `Db.pinf`); the arithmetic on this type
  follows the IEEE rules for those specials and is exact on finite values.
* The forward FFT performed by the external rustfft crate is an uninterpreted
  parameter `dft` (the development's theorems hold for every transform);
  likewise `l10` models `f32::log10` on positive arguments and `c2` models
  the real function `x ↦ cos (2 * pi * x)` used by the Blackman formula.
* `usize` arithmetic is `Nat` (`saturating_sub` is `Nat` subtraction); a Rust
  panic (division by zero in `calculate_peak_power_profile` when the hop size
  is zero) is modelled by an `Option` result, `none` meaning the panic.
* Chunks handed to the streaming state machine carry the dB power the source
  computes for them at the top of the loop, since the state machine consumes
  only that value and the raw samples.
-/

/-- One IQ sample: an in-phase/quadrature pair (`input/mod.rs`, struct IqSample). -/
structure IqSample where
  i : ℚ
  q : ℚ
deriving DecidableEq, Repr

/-- Model of an `f32` dB power value: exact rationals plus the IEEE specials. -/
inductive Db where
  | nan
  | ninf
  | pinf
  | val (q : ℚ)
deriving DecidableEq, Repr

namespace Db

/-- IEEE negation. -/
def neg : Db → Db
  | nan => nan
  | ninf => pinf
  | pinf => ninf
  | val q => val (-q)

/-- IEEE addition (exact on finite values). -/
def add : Db → Db → Db
  | nan, _ => nan
  | _, nan => nan
  | ninf, pinf => nan
  | pinf, ninf => nan
  | ninf, _ => ninf
  | _, ninf => ninf
  | pinf, _ => pinf
  | _, pinf => pinf
  | val a, val b => val (a + b)

/-- IEEE subtraction, `a - b = a + (-b)`. -/
def sub (a b : Db) : Db := a.add b.neg

/-- IEEE multiplication (exact on finite values); `0 * inf = nan`. -/
def mul : Db → Db → Db
  | nan, _ => nan
  | _, nan => nan
  | ninf, ninf => pinf
  | ninf, pinf => ninf
  | pinf, ninf => ninf
  | pinf, pinf => pinf
  | ninf, val b => if b = 0 then nan else if 0 < b then ninf else pinf
  | pinf, val b => if b = 0 then nan else if 0 < b then pinf else ninf
  | val a, ninf => if a = 0 then nan else if 0 < a then ninf else pinf
  | val a, pinf => if a = 0 then nan else if 0 < a then pinf else ninf
  | val a, val b => val (a * b)

/-- Model of the Rust `<` operator on `f32`: every comparison with NaN is false. -/
def lt : Db → Db → Bool
  | val a, val b => a < b
  | ninf, val _ => true
  | ninf, pinf => true
  | val _, pinf => true
  | _, _ => false

/-- Model of `partial_cmp(..).unwrap_or(Ordering::Equal)` used by the profile sort. -/
def cmpE : Db → Db → Ordering
  | nan, _ => .eq
  | _, nan => .eq
  | ninf, ninf => .eq
  | pinf, pinf => .eq
  | ninf, _ => .lt
  | _, ninf => .gt
  | pinf, _ => .gt
  | _, pinf => .lt
  | val a, val b => compare a b

end Db

/-- Ascending stable sort of a dB profile by `Db.cmpE`, modelling
`Vec::sort_by` in `auto_threshold` (detector.rs:115).  Insertion sort; the
profiles sorted here contain no NaN, and values comparing equal are identical,
so any correct ascending sort has the same result as the source's. -/
def insertDb (x : Db) : List Db → List Db
  | [] => [x]
  | y :: ys => if Db.cmpE x y = Ordering.gt then y :: insertDb x ys else x :: y :: ys

/-- Sort driver for `insertDb`. -/
def sortDb : List Db → List Db
  | [] => []
  | x :: xs => insertDb x (sortDb xs)

/-- A detected transmission segment (detector.rs:21). -/
structure Segment where
  start_sample : ℕ
  end_sample : ℕ
deriving DecidableEq, Repr

/-- Segment duration in samples (detector.rs:27). -/
def Segment.duration_samples (s : Segment) : ℕ := s.end_sample - s.start_sample

/-- Blackman window coefficients (detector.rs:7, `blackman_window`).
The source computes `a0 - a1*cos(2*PI*x) + a2*cos(4*PI*x)` with `x = n/(size-1)`;
`c2` models `x ↦ cos (2 * pi * x)`.  For `size = 1` the quotient is `0/0`
(NaN in the source, `0` here); a one-point frame has no non-DC FFT bin, so the
coefficient is never observed by any power value. -/
def blackman_window (c2 : ℚ → ℚ) (size : ℕ) : List ℚ :=
  (List.range size).map fun n =>
    let x : ℚ := (n : ℚ) / ((size : ℚ) - 1)
    (42 / 100 : ℚ) - (5 / 10 : ℚ) * c2 x + (8 / 100 : ℚ) * c2 (2 * x)

/-- Peak FFT-bin power in dB for one windowed frame (detector.rs:39,
`calculate_peak_power_db`): empty frame returns negative infinity; otherwise
window the samples elementwise, transform, drop the DC bin, take the maximum
squared magnitude, normalize by the squared frame length and convert to dB.
A zero peak gives `log10 0 = -inf`, hence `ninf`. -/
def calculate_peak_power_db (dft : List (ℚ × ℚ) → List (ℚ × ℚ)) (l10 : ℚ → ℚ)
    (samples : List IqSample) (window : List ℚ) : Db :=
  if samples.isEmpty then Db.ninf
  else
    let n : ℕ := samples.length
    let buffer : List (ℚ × ℚ) := List.zipWith (fun s w => (s.i * w, s.q * w)) samples window
    let out := dft buffer
    let peak : ℚ := ((out.drop 1).map fun c => c.1 ^ 2 + c.2 ^ 2).foldl max 0
    if peak = 0 then Db.ninf
    else Db.val (10 * l10 (peak / ((n : ℚ) * (n : ℚ))))

/-- Streaming-call-site power (slicer.rs:190): the source invokes
`calculate_peak_power_db(&chunk, &mut fft_planner)` without the window argument
required by detector.rs:39, so the chunk enters the transform unscaled; this
definition is the estimator with the windowing step omitted. -/
def calculate_peak_power_db_nowindow (dft : List (ℚ × ℚ) → List (ℚ × ℚ)) (l10 : ℚ → ℚ)
    (samples : List IqSample) : Db :=
  if samples.isEmpty then Db.ninf
  else
    let n : ℕ := samples.length
    let buffer : List (ℚ × ℚ) := samples.map fun s => (s.i, s.q)
    let out := dft buffer
    let peak : ℚ := ((out.drop 1).map fun c => c.1 ^ 2 + c.2 ^ 2).foldl max 0
    if peak = 0 then Db.ninf
    else Db.val (10 * l10 (peak / ((n : ℚ) * (n : ℚ))))

/-- Peak power profile with 50% overlap (detector.rs:71,
`calculate_peak_power_profile`).  Inputs shorter than the frame length are one
single frame; otherwise `hop = N/2` frames are measured, a frame being pushed
only when it is exactly `N` samples long.  For `N ≤ 1` with `len ≥ N` the
source divides by the zero hop size and panics: modelled by `none`. -/
def calculate_peak_power_profile (dft : List (ℚ × ℚ) → List (ℚ × ℚ)) (l10 : ℚ → ℚ)
    (c2 : ℚ → ℚ) (samples : List IqSample) (window_size : ℕ) : Option (List Db) :=
  if samples.length < window_size then
    some [calculate_peak_power_db dft l10 samples (blackman_window c2 samples.length)]
  else
    let hop_size := window_size / 2
    if hop_size = 0 then none
    else
      let num_frames := (samples.length - window_size) / hop_size + 1
      some ((List.range num_frames).filterMap fun i =>
        let start := i * hop_size
        let e := min (start + window_size) samples.length
        if e - start = window_size then
          some (calculate_peak_power_db dft l10 ((samples.drop start).take (e - start))
            (blackman_window c2 window_size))
        else none)

/-- Result of auto-threshold analysis (detector.rs:95). -/
structure ThresholdAnalysis where
  threshold : Db
  noise_floor : Db
  p95 : Db
deriving DecidableEq, Repr

/-- Auto-detected threshold (detector.rs:103, `auto_threshold`): fallback triple
for an empty profile, otherwise sort ascending and take the 10th and (clamped)
99th percentile values; threshold is 70% of the way from the noise floor to the
upper reference.  The percentile indices are within bounds (the profile is
non-empty), so the `getD` default is never used, matching the source's
panic-free direct indexing. -/
def auto_threshold (dft : List (ℚ × ℚ) → List (ℚ × ℚ)) (l10 : ℚ → ℚ) (c2 : ℚ → ℚ)
    (samples : List IqSample) (window_size : ℕ) : Option ThresholdAnalysis :=
  match calculate_peak_power_profile dft l10 c2 samples window_size with
  | none => none
  | some profile =>
    if profile.isEmpty then
      some ⟨Db.val (-60), Db.val (-70), Db.val (-50)⟩
    else
      let sorted := sortDb profile
      let p10_idx := sorted.length / 10
      let noise_floor := sorted.getD p10_idx Db.nan
      let p99_idx := sorted.length * 99 / 100
      let p95 := sorted.getD (min p99_idx (sorted.length - 1)) Db.nan
      let threshold := noise_floor.add ((p95.sub noise_floor).mul (Db.val (7 / 10)))
      some ⟨threshold, noise_floor, p95⟩

/-- Hysteresis walk over the power profile (detector.rs:159, the loop of
`detect_segments`): state is the running index, the in-transmission flag and
the start index of the open transmission; returns the closed segments in order
together with the final flag and start index. -/
def hystGo (thOn thOff : Db) (hop ws : ℕ) : ℕ → Bool → ℕ → List Db → List Segment × Bool × ℕ
  | _, inTx, s, [] => ([], inTx, s)
  | idx, inTx, s, p :: rest =>
    if !inTx && Db.lt thOn p then
      hystGo thOn thOff hop ws (idx + 1) true idx rest
    else if inTx && Db.lt p thOff then
      let r := hystGo thOn thOff hop ws (idx + 1) false s rest
      (⟨s * hop, idx * hop + ws⟩ :: r.1, r.2)
    else
      hystGo thOn thOff hop ws (idx + 1) inTx s rest

/-- Merge loop of `merge_segments` (detector.rs:201): fold the remaining
segments into the current group, starting a new group when the next segment
starts more than `max_gap` past the current end. -/
def mergeGo (max_gap : ℕ) (current : Segment) : List Segment → List Segment
  | [] => [current]
  | seg :: rest =>
    if seg.start_sample ≤ current.end_sample + max_gap then
      mergeGo max_gap ⟨current.start_sample, seg.end_sample⟩ rest
    else
      current :: mergeGo max_gap seg rest

/-- Merge segments separated by at most `max_gap` samples (detector.rs:193). -/
def merge_segments (segments : List Segment) (max_gap : ℕ) : List Segment :=
  match segments with
  | [] => []
  | first :: rest => mergeGo max_gap first rest

/-- Detect transmission segments (detector.rs:138, `detect_segments`): profile,
hysteresis walk with `off = on - 3 dB`, a final segment extending to the end of
the samples if still in transmission, gap merge, then the minimum-duration
filter. -/
def detect_segments (dft : List (ℚ × ℚ) → List (ℚ × ℚ)) (l10 : ℚ → ℚ) (c2 : ℚ → ℚ)
    (samples : List IqSample) (window_size : ℕ) (threshold_db : Db)
    (min_duration_samples max_gap_samples : ℕ) : Option (List Segment) :=
  match calculate_peak_power_profile dft l10 c2 samples window_size with
  | none => none
  | some profile =>
    if profile.isEmpty then some []
    else
      let hop_size := window_size / 2
      let threshold_on := threshold_db
      let threshold_off := threshold_db.sub (Db.val 3)
      let r := hystGo threshold_on threshold_off hop_size window_size 0 false 0 profile
      let segments := r.1 ++ (if r.2.1 then [⟨r.2.2 * hop_size, samples.length⟩] else [])
      let merged := merge_segments segments max_gap_samples
      some (merged.filter fun s => min_duration_samples ≤ s.duration_samples)

/-- Add padding to segments, clamping to valid bounds (detector.rs:216,
`add_padding`): `saturating_sub` on the start, `min` with the total on the end. -/
def add_padding (segments : List Segment) (padding_samples total_samples : ℕ) : List Segment :=
  segments.map fun s =>
    ⟨s.start_sample - padding_samples, min (s.end_sample + padding_samples) total_samples⟩

/-- Configuration of the streaming detector, in samples
(slicer.rs:153, `process_stream` locals). -/
structure StreamConfig where
  chunkSize : ℕ
  minDurationSamples : ℕ
  gapSamples : ℕ
  paddingSamples : ℕ
  thresholdMargin : ℚ
deriving DecidableEq, Repr

/-- State of the streaming detector (slicer.rs:158, `process_stream` locals):
pre-roll ring buffer, transmission accumulator, noise-floor EMA,
in-transmission flag and silence counter. -/
structure StreamState where
  preBuffer : List IqSample
  txBuffer : List IqSample
  noiseFloorDb : Db
  inTransmission : Bool
  silenceCounter : ℕ
deriving DecidableEq, Repr

/-- Initial streaming state (slicer.rs:159, pre_buffer and tx_buffer empty,
noise floor -60 dB, not in transmission, silence counter 0). -/
def initStreamState : StreamState :=
  ⟨[], [], Db.val (-60), false, 0⟩

/-- One iteration of the streaming loop body (slicer.rs:188, `process_stream`)
for a freshly read chunk with its measured peak power: update the noise-floor
EMA only when idle, derive the hysteresis thresholds, then either run the idle
behavior (ring-buffer update, possible transition to active seeded with the
pre-roll) or the active behavior (accumulate, count silence, close and flush
when the gap is reached and the minimum duration is met).  Returns the next
state and the flushed buffer, if this chunk closed a long-enough transmission. -/
def stepStream (cfg : StreamConfig) (st : StreamState) (chunk : List IqSample)
    (power_db : Db) : StreamState × Option (List IqSample) :=
  let nf := if st.inTransmission then st.noiseFloorDb
            else (st.noiseFloorDb.mul (Db.val (1 - 1 / 200))).add (power_db.mul (Db.val (1 / 200)))
  let threshold := nf.add (Db.val cfg.thresholdMargin)
  let threshold_off := threshold.sub (Db.val 3)
  if st.inTransmission then
    let tx := st.txBuffer ++ chunk
    if Db.lt power_db threshold_off then
      let sil := st.silenceCounter + cfg.chunkSize
      if cfg.gapSamples ≤ sil then
        let flush := if cfg.minDurationSamples ≤ tx.length - cfg.paddingSamples
                     then some tx else none
        ({ st with txBuffer := [], noiseFloorDb := nf, inTransmission := false,
                   silenceCounter := sil }, flush)
      else
        ({ st with txBuffer := tx, noiseFloorDb := nf, silenceCounter := sil }, none)
    else
      ({ st with txBuffer := tx, noiseFloorDb := nf, silenceCounter := 0 }, none)
  else
    let pre1 := st.preBuffer ++ chunk
    let pre := if cfg.paddingSamples < pre1.length
               then pre1.drop (pre1.length - cfg.paddingSamples) else pre1
    if Db.lt threshold power_db then
      ({ preBuffer := pre, txBuffer := pre ++ chunk, noiseFloorDb := nf,
         inTransmission := true, silenceCounter := 0 }, none)
    else
      ({ st with preBuffer := pre, noiseFloorDb := nf }, none)

/-- Run the streaming loop over a list of chunks (each with its measured power),
collecting the flushed segments in emission order. -/
def runStream (cfg : StreamConfig) : StreamState → List (List IqSample × Db) →
    StreamState × List (List IqSample)
  | st, [] => (st, [])
  | st, (c, p) :: rest =>
    let r := stepStream cfg st c p
    let rr := runStream cfg r.1 rest
    (rr.1, r.2.toList ++ rr.2)

/-- End-of-stream handling (slicer.rs:271): a transmission still open when the
source closes is flushed if the accumulator meets the minimum duration. -/
def finalFlush (cfg : StreamConfig) (st : StreamState) : Option (List IqSample) :=
  if st.inTransmission && decide (cfg.minDurationSamples ≤ st.txBuffer.length)
  then some st.txBuffer else none

/-- Transform instantiation used by witnesses and counterexamples: the genuine
unnormalized forward DFT on length-2 inputs (twiddle factors are rational
there), the input unchanged on other lengths.  The claim theorems are
quantified over every transform; this instance is needed only where a concrete
evaluation is required. -/
def dftEx : List (ℚ × ℚ) → List (ℚ × ℚ)
  | [a, b] => [(a.1 + b.1, a.2 + b.2), (a.1 - b.1, a.2 - b.2)]
  | l => l

/-- Logarithm instantiation for witnesses: any strictly monotone stand-in works
since no claim constrains the numeric dB scale; the identity is used. -/
def l10Ex : ℚ → ℚ := fun q => q

/-- Cosine-model instantiation for witnesses: `cos (2 * pi * x)` is `1` at
integer `x` and `-1` at half-integer `x`; these are the only arguments the
windows used by witnesses evaluate, other inputs get an arbitrary `0`. -/
def c2Ex : ℚ → ℚ := fun x => if x.den = 1 then 1 else if x.den = 2 then -1 else 0

/-! Concrete streaming scenario of the spec's testable property (claim C2):
50 chunks at -70 dB, 20 chunks at -20 dB, 30 chunks at -70 dB, margin 15 dB.
Chunk size 2, padding budget 4 samples, gap 3 samples, minimum duration 10. -/

/-- Streaming configuration for the C2 scenario. -/
def cfgC2 : StreamConfig := ⟨2, 10, 3, 4, 15⟩

/-- One 2-sample chunk for the C2 scenario (contents are irrelevant to the
control flow, which reads only powers and lengths). -/
def chunkC2 : List IqSample := [⟨0, 0⟩, ⟨0, 0⟩]

/-- The C2 chunk sequence with its per-chunk powers. -/
def scenarioC2 : List (List IqSample × Db) :=
  List.replicate 50 (chunkC2, Db.val (-70)) ++ List.replicate 20 (chunkC2, Db.val (-20)) ++
  List.replicate 30 (chunkC2, Db.val (-70))

set_option maxRecDepth 10000

/-- Claim C2, counterexample: in the spec's streaming scenario the single
flushed segment is NOT `pre-roll length + 20 chunks` samples long: the active
state appends each chunk to the accumulator before checking the silence
counter, so the flushed buffer also holds the below-threshold chunks consumed
while the gap elapsed (here 2 chunks: 48 samples, not 4 + 40 = 44). -/
theorem stream_scenario_length_cex :
    ((runStream cfgC2 initStreamState scenarioC2).2.map List.length) ≠
      [cfgC2.paddingSamples + 20 * cfgC2.chunkSize] := by
  with_unfolding_all decide

/-- Claim C2, amended: the scenario yields exactly one flushed segment, of
length pre-roll budget + 20 burst chunks + the below-threshold chunks consumed
while the silence counter reached the gap (the least number of chunks covering
`gapSamples`, here 2), and afterwards the detector is Idle with an empty
transmission accumulator. -/
theorem stream_scenario_amended :
    ((runStream cfgC2 initStreamState scenarioC2).2.map List.length) =
      [cfgC2.paddingSamples +
        (20 + (cfgC2.gapSamples + cfgC2.chunkSize - 1) / cfgC2.chunkSize) * cfgC2.chunkSize] ∧
    (runStream cfgC2 initStreamState scenarioC2).1.inTransmission = false ∧
    (runStream cfgC2 initStreamState scenarioC2).1.txBuffer = [] := by
  refine ⟨?_, ?_, ?_⟩ <;> with_unfolding_all decide

/-- Claim C8: the noise-floor estimate after one step is exactly
`noise_floor * (1 - alpha) + power * alpha` with `alpha = 0.005 = 1/200` when
the chunk is processed in Idle, and is unchanged when processed in Active
(slicer.rs:200). -/
theorem noise_floor_ema (cfg : StreamConfig) (st : StreamState) (chunk : List IqSample)
    (p : Db) :
    (stepStream cfg st chunk p).1.noiseFloorDb =
      if st.inTransmission then st.noiseFloorDb
      else (st.noiseFloorDb.mul (Db.val (1 - 1 / 200))).add (p.mul (Db.val (1 / 200))) := by
  cases hb : st.inTransmission <;>
    simp only [stepStream, hb, Bool.false_eq_true, if_false, if_true] <;>
    (repeat first | rfl | split)

/-- Claim C10: the pre-roll ring buffer is mutated only by Idle chunks and is
never cleared on a transmission start or close.  A chunk processed in Active
(including the one that closes the transmission) leaves the pre-roll unchanged;
a chunk processed in Idle replaces it by the last `paddingSamples` entries of
`preBuffer ++ chunk` (whether or not a transmission starts), and a starting
transmission is seeded with exactly that pre-roll followed by the chunk.
Induction over an Active phase therefore shows the pre-roll after a close is
the one captured when that transmission began. -/
theorem preroll_ring_buffer (cfg : StreamConfig) (st : StreamState) (chunk : List IqSample)
    (p : Db) :
    (st.inTransmission = true → (stepStream cfg st chunk p).1.preBuffer = st.preBuffer) ∧
    (st.inTransmission = false →
      (stepStream cfg st chunk p).1.preBuffer =
        (st.preBuffer ++ chunk).drop ((st.preBuffer ++ chunk).length - cfg.paddingSamples)) ∧
    (st.inTransmission = false → (stepStream cfg st chunk p).1.inTransmission = true →
      (stepStream cfg st chunk p).1.txBuffer =
        (stepStream cfg st chunk p).1.preBuffer ++ chunk) := by
  refine ⟨fun hb => ?_, fun hb => ?_, fun hb ht => ?_⟩
  · simp only [stepStream, hb, if_true]
    repeat first | rfl | split
  · simp only [stepStream, hb, Bool.false_eq_true, if_false]
    by_cases hlen : cfg.paddingSamples < (st.preBuffer ++ chunk).length
    · simp only [hlen, if_true]
      repeat first | rfl | split
    · have h0 : (st.preBuffer ++ chunk).length - cfg.paddingSamples = 0 := by omega
      simp only [hlen, if_false, h0, List.drop_zero]
      repeat first | rfl | split
  · revert ht
    simp only [stepStream, hb, Bool.false_eq_true, if_false]
    split <;> intro ht
    · rfl
    · simp at ht

/-- Claim C10, witness: a concrete Active step keeps the pre-roll, a concrete
Idle step truncates `preBuffer ++ chunk` to the padding budget, and a concrete
triggering Idle step seeds the accumulator with that pre-roll plus the chunk. -/
theorem preroll_ring_buffer_witness :
    (stepStream ⟨2, 10, 3, 4, 15⟩ ⟨[⟨1, 0⟩], [⟨2, 0⟩], Db.val (-60), true, 0⟩
        [⟨5, 0⟩, ⟨6, 0⟩] (Db.val 0)).1.preBuffer = [⟨1, 0⟩] ∧
    (stepStream ⟨2, 10, 3, 4, 15⟩ ⟨[⟨1, 0⟩, ⟨2, 0⟩, ⟨3, 0⟩, ⟨4, 0⟩], [], Db.val (-60), false, 0⟩
        [⟨5, 0⟩, ⟨6, 0⟩] (Db.val 0)).1.preBuffer = [⟨3, 0⟩, ⟨4, 0⟩, ⟨5, 0⟩, ⟨6, 0⟩] ∧
    (stepStream ⟨2, 10, 3, 4, 15⟩ ⟨[⟨1, 0⟩, ⟨2, 0⟩, ⟨3, 0⟩, ⟨4, 0⟩], [], Db.val (-60), false, 0⟩
        [⟨5, 0⟩, ⟨6, 0⟩] (Db.val 0)).1.txBuffer =
      [⟨3, 0⟩, ⟨4, 0⟩, ⟨5, 0⟩, ⟨6, 0⟩, ⟨5, 0⟩, ⟨6, 0⟩] := by
  refine ⟨(preroll_ring_buffer _ _ _ _).1 rfl, ?_, ?_⟩
  · exact ((preroll_ring_buffer _ _ _ _).2.1 rfl).trans (by with_unfolding_all decide)
  · exact ((preroll_ring_buffer _ _ _ _).2.2 rfl (by with_unfolding_all decide)).trans
      (by with_unfolding_all decide)

/-- Claim C1: at the streaming call site the window argument is omitted
(slicer.rs:190 passes only the chunk and the planner to the three-parameter
estimator of detector.rs:39), so the chunk is not Blackman-windowed.  The
omission is material: on the 2-sample chunk `[(1,0),(0,0)]`, with the genuine
length-2 DFT, the section 4.2 estimator with a Blackman window of the chunk
length returns negative infinity (a length-2 Blackman window is identically
zero since `cos 2 pi = 1`), while the unwindowed power the streaming code
computes is finite — the streaming per-chunk power does not equal the batch
estimator on that chunk. -/
theorem stream_power_window_omitted :
    calculate_peak_power_db dftEx l10Ex [⟨1, 0⟩, ⟨0, 0⟩] (blackman_window c2Ex 2) = Db.ninf ∧
    calculate_peak_power_db_nowindow dftEx l10Ex [⟨1, 0⟩, ⟨0, 0⟩] ≠ Db.ninf ∧
    calculate_peak_power_db_nowindow dftEx l10Ex [⟨1, 0⟩, ⟨0, 0⟩] ≠
      calculate_peak_power_db dftEx l10Ex [⟨1, 0⟩, ⟨0, 0⟩] (blackman_window c2Ex 2) := by
  refine ⟨?_, ?_, ?_⟩ <;> with_unfolding_all decide

/-- Claim C3, amended: for an empty sample buffer `auto_threshold` does not
fail, but it does not return the fallback triple either: the power profile of
an empty buffer is the one-element profile `[-inf]` (the empty frame returns
the negative-infinity sentinel), so the function returns noise floor and p95
equal to negative infinity, with the NaN threshold that IEEE arithmetic gives
`-inf + (-inf - -inf) * 0.7`. -/
theorem auto_threshold_empty_input (dft : List (ℚ × ℚ) → List (ℚ × ℚ)) (l10 : ℚ → ℚ)
    (c2 : ℚ → ℚ) (ws : ℕ) (h : 1 ≤ ws) :
    auto_threshold dft l10 c2 [] ws = some ⟨Db.nan, Db.ninf, Db.ninf⟩ := by
  have h0 : ([] : List IqSample).length < ws := by simpa using h
  have hp : calculate_peak_power_db dft l10 []
      (blackman_window c2 ([] : List IqSample).length) = Db.ninf := rfl
  simp only [auto_threshold, calculate_peak_power_profile, if_pos h0, hp]
  with_unfolding_all decide

/-- Claim C3, witness: the amended statement evaluated at window size 1. -/
theorem auto_threshold_empty_input_witness :
    1 ≤ 1 ∧ auto_threshold dftEx l10Ex c2Ex [] 1 = some ⟨Db.nan, Db.ninf, Db.ninf⟩ :=
  ⟨Nat.le_refl 1, auto_threshold_empty_input dftEx l10Ex c2Ex 1 (Nat.le_refl 1)⟩

/-- Claim C3, counterexample: for the empty sample buffer the returned triple
is NOT the fallback (threshold -60, noise floor -70, p95 -50): the profile of
the empty buffer is `[-inf]`, which is non-empty, so the fallback branch is not
taken. -/
theorem auto_threshold_empty_cex :
    auto_threshold dftEx l10Ex c2Ex [] 1 ≠
      some ⟨Db.val (-60), Db.val (-70), Db.val (-50)⟩ := by
  with_unfolding_all decide

/-- Claim C5: for two segments in start order, the merge pass yields one
segment from the first start to the second end when the second start is within
`max_gap` of the first end, and leaves them distinct otherwise
(detector.rs:193). -/
theorem merge_two_segments (s1 s2 : Segment) (max_gap : ℕ)
    (h : s1.start_sample ≤ s2.start_sample) :
    merge_segments [s1, s2] max_gap =
      if s2.start_sample ≤ s1.end_sample + max_gap
      then [⟨s1.start_sample, s2.end_sample⟩] else [s1, s2] := by
  simp only [merge_segments, mergeGo]

/-- Claim C5, witness: a gap of 1 within `max_gap = 1` merges `[0,5)` and
`[6,10)` into `[0,10)`; with `max_gap = 0` they stay distinct. -/
theorem merge_two_segments_witness :
    merge_segments [⟨0, 5⟩, ⟨6, 10⟩] 1 = [⟨0, 10⟩] ∧
    merge_segments [⟨0, 5⟩, ⟨6, 10⟩] 0 = [⟨0, 5⟩, ⟨6, 10⟩] :=
  ⟨(merge_two_segments ⟨0, 5⟩ ⟨6, 10⟩ 1 (by decide)).trans (by decide),
   (merge_two_segments ⟨0, 5⟩ ⟨6, 10⟩ 0 (by decide)).trans (by decide)⟩

/-- A `filterMap` whose function always succeeds is a `map`. -/
theorem filterMap_eq_map_of_forall {α β : Type} (f : α → Option β) (g : α → β) :
    ∀ l : List α, (∀ x ∈ l, f x = some (g x)) → l.filterMap f = l.map g := by
  intro l
  induction l with
  | nil => intro _; rfl
  | cons a l ih =>
    intro h
    have ha := h a (List.mem_cons_self a l)
    simp only [List.filterMap_cons, ha, List.map_cons]
    exact congrArg _ (ih fun x hx => h x (List.mem_cons_of_mem a hx))

/-- Every frame index in range denotes a full in-bounds frame. -/
theorem frame_in_bounds {len ws hop i n : ℕ} (hle : ws ≤ len) (hn : n = (len - ws) / hop)
    (hi : i < n + 1) : i * hop + ws ≤ len := by
  have h1 : i ≤ (len - ws) / hop := by omega
  have h2 : i * hop ≤ (len - ws) / hop * hop := Nat.mul_le_mul_right hop h1
  have h3 : (len - ws) / hop * hop ≤ len - ws := Nat.div_mul_le_self _ _
  omega

/-- In the long branch (`ws ≤ len`, `2 ≤ ws`) the power profile is the map of
the section 4.2 estimator over the full frames at multiples of `hop = ws / 2`. -/
theorem profile_long_eq (dft : List (ℚ × ℚ) → List (ℚ × ℚ)) (l10 : ℚ → ℚ) (c2 : ℚ → ℚ)
    (samples : List IqSample) (ws : ℕ) (h2 : 2 ≤ ws) (hle : ws ≤ samples.length) :
    calculate_peak_power_profile dft l10 c2 samples ws =
      some ((List.range ((samples.length - ws) / (ws / 2) + 1)).map fun i =>
        calculate_peak_power_db dft l10 ((samples.drop (i * (ws / 2))).take ws)
          (blackman_window c2 ws)) := by
  have hnlt : ¬ samples.length < ws := Nat.not_lt.mpr hle
  have hhop : ws / 2 ≠ 0 := by
    have : 1 ≤ ws / 2 := (Nat.le_div_iff_mul_le (by norm_num)).mpr (by omega)
    omega
  simp only [calculate_peak_power_profile, if_neg hnlt, if_neg hhop]
  refine congrArg some (filterMap_eq_map_of_forall _ _ _ ?_)
  intro i hi
  have hib : i * (ws / 2) + ws ≤ samples.length := by
    refine frame_in_bounds hle rfl ?_
    simpa using List.mem_range.mp hi
  have hmin : min (i * (ws / 2) + ws) samples.length = i * (ws / 2) + ws :=
    Nat.min_eq_left hib
  simp only [hmin]
  have hsub : i * (ws / 2) + ws - i * (ws / 2) = ws := by omega
  simp [hsub]

/-- Each full frame has exactly `ws` samples. -/
theorem frame_length (samples : List IqSample) {ws hop i : ℕ}
    (hib : i * hop + ws ≤ samples.length) :
    ((samples.drop (i * hop)).take ws).length = ws := by
  simp only [List.length_take, List.length_drop]
  omega

/-- Claim C4: for every frame length `N ≥ 2`, an input shorter than `N` gives a
one-element profile (the whole input as one frame); an input of length
`L ≥ N` gives exactly `(L - N) / hop + 1` profile elements with `hop = N / 2`,
the `i`-th element being the section 4.2 power of the frame
`[i*hop, i*hop + N)`, each frame being exactly `N` samples long (no zero-padded
or partial frame is measured). -/
theorem profile_framing (dft : List (ℚ × ℚ) → List (ℚ × ℚ)) (l10 : ℚ → ℚ) (c2 : ℚ → ℚ)
    (samples : List IqSample) (ws : ℕ) (h2 : 2 ≤ ws) :
    (samples.length < ws →
      calculate_peak_power_profile dft l10 c2 samples ws =
        some [calculate_peak_power_db dft l10 samples (blackman_window c2 samples.length)]) ∧
    (ws ≤ samples.length →
      ∃ p, calculate_peak_power_profile dft l10 c2 samples ws = some p ∧
        p.length = (samples.length - ws) / (ws / 2) + 1 ∧
        ∀ i, i < p.length →
          p.getD i Db.nan =
            calculate_peak_power_db dft l10 ((samples.drop (i * (ws / 2))).take ws)
              (blackman_window c2 ws) ∧
          ((samples.drop (i * (ws / 2))).take ws).length = ws) := by
  constructor
  · intro hlt
    simp only [calculate_peak_power_profile, if_pos hlt]
  · intro hle
    refine ⟨_, profile_long_eq dft l10 c2 samples ws h2 hle, by simp, ?_⟩
    intro i hi
    simp only [List.length_map, List.length_range] at hi
    constructor
    · rw [List.getD_eq_getElem?_getD]
      simp [List.getElem?_map, List.getElem?_range, hi]
    · exact frame_length samples (frame_in_bounds hle rfl hi)

/-- Claim C4, witness: frame length 2 over a 5-sample input gives the expected
4 frames of 2 samples at hop 1. -/
theorem profile_framing_witness :
    (2 ≤ 2) ∧
    (2 ≤ ([⟨1, 0⟩, ⟨0, 0⟩, ⟨2, 0⟩, ⟨0, 0⟩, ⟨3, 0⟩] : List IqSample).length →
      ∃ p, calculate_peak_power_profile dftEx l10Ex c2Ex
            [⟨1, 0⟩, ⟨0, 0⟩, ⟨2, 0⟩, ⟨0, 0⟩, ⟨3, 0⟩] 2 = some p ∧
        p.length = (([⟨1, 0⟩, ⟨0, 0⟩, ⟨2, 0⟩, ⟨0, 0⟩, ⟨3, 0⟩] : List IqSample).length - 2) / (2 / 2) + 1 ∧
        ∀ i, i < p.length →
          p.getD i Db.nan =
            calculate_peak_power_db dftEx l10Ex
              ((([⟨1, 0⟩, ⟨0, 0⟩, ⟨2, 0⟩, ⟨0, 0⟩, ⟨3, 0⟩] : List IqSample).drop (i * (2 / 2))).take 2)
              (blackman_window c2Ex 2) ∧
          ((([⟨1, 0⟩, ⟨0, 0⟩, ⟨2, 0⟩, ⟨0, 0⟩, ⟨3, 0⟩] : List IqSample).drop (i * (2 / 2))).take 2).length = 2) :=
  ⟨Nat.le_refl 2,
   (profile_framing dftEx l10Ex c2Ex [⟨1, 0⟩, ⟨0, 0⟩, ⟨2, 0⟩, ⟨0, 0⟩, ⟨3, 0⟩] 2 (Nat.le_refl 2)).2⟩

/-- Claim C9, counterexample: for frame length 1 and a non-empty input the
profiler does not return a profile at all: the hop size is `1 / 2 = 0` and the
source panics on the division `(len - ws) / hop` (modelled by `none`), so it is
not the case that every sample sequence yields a non-empty profile. -/
theorem profile_nonempty_cex :
    calculate_peak_power_profile dftEx l10Ex c2Ex [⟨1, 0⟩] 1 = none := by
  with_unfolding_all decide

/-- Claim C9, amended: for every frame length `N ≥ 2` — and for smaller `N` on
inputs shorter than `N`, such as the empty buffer — the profiler returns a
non-empty profile (a short input yields exactly one frame), so the
empty-profile fallback branch of `auto_threshold` is unreachable for such
inputs; the claim fails only in the panic case `N ≤ 1` with `len ≥ N`. -/
theorem profile_nonempty (dft : List (ℚ × ℚ) → List (ℚ × ℚ)) (l10 : ℚ → ℚ) (c2 : ℚ → ℚ)
    (samples : List IqSample) (ws : ℕ) (h : 2 ≤ ws ∨ samples.length < ws) :
    ∃ p, calculate_peak_power_profile dft l10 c2 samples ws = some p ∧ p ≠ [] := by
  by_cases hlt : samples.length < ws
  · refine ⟨[calculate_peak_power_db dft l10 samples (blackman_window c2 samples.length)],
      ?_, by simp⟩
    simp only [calculate_peak_power_profile, if_pos hlt]
  · have h2 : 2 ≤ ws := by
      rcases h with h | h
      · exact h
      · exact absurd h hlt
    have hle : ws ≤ samples.length := Nat.not_lt.mp hlt
    refine ⟨_, profile_long_eq dft l10 c2 samples ws h2 hle, ?_⟩
    refine List.ne_nil_of_length_pos ?_
    simp

/-- Claim C9, witness: the empty buffer with frame length 1 (the short branch)
and a 3-sample buffer with frame length 2 (the long branch) both yield
non-empty profiles. -/
theorem profile_nonempty_witness :
    (2 ≤ 1 ∨ ([] : List IqSample).length < 1) ∧
    (∃ p, calculate_peak_power_profile dftEx l10Ex c2Ex [] 1 = some p ∧ p ≠ []) ∧
    (2 ≤ 2 ∨ ([⟨1, 0⟩, ⟨0, 0⟩, ⟨2, 0⟩] : List IqSample).length < 2) ∧
    (∃ p, calculate_peak_power_profile dftEx l10Ex c2Ex [⟨1, 0⟩, ⟨0, 0⟩, ⟨2, 0⟩] 2 = some p ∧
      p ≠ []) :=
  ⟨Or.inr (by decide),
   profile_nonempty dftEx l10Ex c2Ex [] 1 (Or.inr (by decide)),
   Or.inl (Nat.le_refl 2),
   profile_nonempty dftEx l10Ex c2Ex [⟨1, 0⟩, ⟨0, 0⟩, ⟨2, 0⟩] 2 (Or.inl (Nat.le_refl 2))⟩

/-- Every segment produced by the merge loop starts at or after the current
group's start, provided the input is sorted by start. -/
theorem mergeGo_lower (max_gap : ℕ) :
    ∀ (r : List Segment) (c : Segment),
      List.Pairwise (fun a b => a.start_sample ≤ b.start_sample) (c :: r) →
      ∀ x ∈ mergeGo max_gap c r, c.start_sample ≤ x.start_sample := by
  intro r
  induction r with
  | nil =>
    intro c _ x hx
    simp only [mergeGo, List.mem_singleton] at hx
    exact hx ▸ Nat.le_refl _
  | cons seg rest ih =>
    intro c hp x hx
    have hcs : c.start_sample ≤ seg.start_sample :=
      (List.pairwise_cons.mp hp).1 seg (List.mem_cons_self _ _)
    have hrest := (List.pairwise_cons.mp hp).2
    simp only [mergeGo] at hx
    by_cases hm : seg.start_sample ≤ c.end_sample + max_gap
    · simp only [if_pos hm] at hx
      have hp' : List.Pairwise (fun a b => a.start_sample ≤ b.start_sample)
          (⟨c.start_sample, seg.end_sample⟩ :: rest) := by
        refine List.pairwise_cons.mpr ⟨?_, (List.pairwise_cons.mp hrest).2⟩
        intro b hb
        exact Nat.le_trans ((List.pairwise_cons.mp hp).1 b (List.mem_cons_of_mem _ hb)) (Nat.le_refl _)
      exact ih ⟨c.start_sample, seg.end_sample⟩ hp' x hx
    · simp only [if_neg hm, List.mem_cons] at hx
      rcases hx with hx | hx
      · exact hx ▸ Nat.le_refl _
      · exact Nat.le_trans hcs (ih seg hrest x hx)

/-- Invariants of the merge loop: sorted input with valid segments bounded by
`len` yields valid segments bounded by `len`, consecutive output segments
separated by more than `max_gap`. -/
theorem mergeGo_inv (max_gap len : ℕ) :
    ∀ (r : List Segment) (c : Segment),
      List.Pairwise (fun a b => a.start_sample ≤ b.start_sample) (c :: r) →
      (∀ s ∈ c :: r, s.start_sample < s.end_sample ∧ s.end_sample ≤ len) →
      (∀ x ∈ mergeGo max_gap c r, x.start_sample < x.end_sample ∧ x.end_sample ≤ len) ∧
      List.Pairwise (fun a b => a.end_sample + max_gap < b.start_sample)
        (mergeGo max_gap c r) := by
  intro r
  induction r with
  | nil =>
    intro c _ hv
    refine ⟨?_, ?_⟩
    · intro x hx
      simp only [mergeGo, List.mem_singleton] at hx
      exact hx ▸ hv c (List.mem_cons_self _ _)
    · simp [mergeGo]
  | cons seg rest ih =>
    intro c hp hv
    have hcs : c.start_sample ≤ seg.start_sample :=
      (List.pairwise_cons.mp hp).1 seg (List.mem_cons_self _ _)
    have hrest := (List.pairwise_cons.mp hp).2
    by_cases hm : seg.start_sample ≤ c.end_sample + max_gap
    · have hp' : List.Pairwise (fun a b => a.start_sample ≤ b.start_sample)
          (⟨c.start_sample, seg.end_sample⟩ :: rest) := by
        refine List.pairwise_cons.mpr ⟨?_, (List.pairwise_cons.mp hrest).2⟩
        intro b hb
        exact (List.pairwise_cons.mp hp).1 b (List.mem_cons_of_mem _ hb)
      have hv' : ∀ s ∈ (⟨c.start_sample, seg.end_sample⟩ : Segment) :: rest,
          s.start_sample < s.end_sample ∧ s.end_sample ≤ len := by
        intro s hs
        rcases List.mem_cons.mp hs with hs | hs
        · subst hs
          have h1 := hv seg (List.mem_cons_of_mem _ (List.mem_cons_self _ _))
          exact ⟨Nat.lt_of_le_of_lt hcs h1.1, h1.2⟩
        · exact hv s (List.mem_cons_of_mem _ (List.mem_cons_of_mem _ hs))
      have := ih ⟨c.start_sample, seg.end_sample⟩ hp' hv'
      simpa only [mergeGo, if_pos hm] using this
    · have hout := ih seg hrest fun s hs => hv s (List.mem_cons_of_mem _ hs)
      refine ⟨?_, ?_⟩
      · intro x hx
        simp only [mergeGo, if_neg hm, List.mem_cons] at hx
        rcases hx with hx | hx
        · exact hx ▸ hv c (List.mem_cons_self _ _)
        · exact hout.1 x hx
      · simp only [mergeGo, if_neg hm]
        refine List.pairwise_cons.mpr ⟨?_, hout.2⟩
        intro b hb
        have := mergeGo_lower max_gap rest seg hrest b hb
        omega

/-- Invariants of `merge_segments` on sorted valid input. -/
theorem merge_segments_inv (max_gap len : ℕ) (l : List Segment)
    (hp : List.Pairwise (fun a b => a.start_sample ≤ b.start_sample) l)
    (hv : ∀ s ∈ l, s.start_sample < s.end_sample ∧ s.end_sample ≤ len) :
    (∀ x ∈ merge_segments l max_gap, x.start_sample < x.end_sample ∧ x.end_sample ≤ len) ∧
    List.Pairwise (fun a b => a.end_sample + max_gap < b.start_sample)
      (merge_segments l max_gap) := by
  cases l with
  | nil => simp [merge_segments]
  | cons first rest =>
    simpa only [merge_segments] using mergeGo_inv max_gap len rest first hp hv

/-- Powers never exceed the negative-infinity sentinel: nothing is below
negative infinity, so an empty-frame power can never open a transmission. -/
theorem Db.not_lt_ninf (x : Db) : Db.lt x Db.ninf = false := by
  cases x <;> rfl

/-- Step equation: an Idle index whose power exceeds the on-threshold opens a
transmission at that index. -/
theorem hystGo_cons_open (thOn thOff : Db) (hop ws idx : ℕ) (inTx : Bool) (s0 : ℕ)
    (p : Db) (rest : List Db) (h : (!inTx && Db.lt thOn p) = true) :
    hystGo thOn thOff hop ws idx inTx s0 (p :: rest) =
      hystGo thOn thOff hop ws (idx + 1) true idx rest := by
  simp [hystGo, h]

/-- Step equation: an Active index whose power drops below the off-threshold
closes the open transmission, emitting the segment
`[s0 * hop, idx * hop + ws)`. -/
theorem hystGo_cons_close (thOn thOff : Db) (hop ws idx : ℕ) (inTx : Bool) (s0 : ℕ)
    (p : Db) (rest : List Db) (hA : (!inTx && Db.lt thOn p) = false)
    (hB : (inTx && Db.lt p thOff) = true) :
    hystGo thOn thOff hop ws idx inTx s0 (p :: rest) =
      (⟨s0 * hop, idx * hop + ws⟩ :: (hystGo thOn thOff hop ws (idx + 1) false s0 rest).1,
       (hystGo thOn thOff hop ws (idx + 1) false s0 rest).2) := by
  simp [hystGo, hA, hB]

/-- Step equation: any other index leaves the phase unchanged. -/
theorem hystGo_cons_stay (thOn thOff : Db) (hop ws idx : ℕ) (inTx : Bool) (s0 : ℕ)
    (p : Db) (rest : List Db) (hA : (!inTx && Db.lt thOn p) = false)
    (hB : (inTx && Db.lt p thOff) = false) :
    hystGo thOn thOff hop ws idx inTx s0 (p :: rest) =
      hystGo thOn thOff hop ws (idx + 1) inTx s0 rest := by
  simp [hystGo, hA, hB]

/-- Invariants of the hysteresis walk together with its final open segment:
assuming every index in play denotes a frame ending inside the sample buffer,
all produced segments (the closed ones and the final one reaching `len`) are
non-degenerate, end at or before `len`, start at or after the current lower
bound (`s0` while in transmission, the running index while idle), and are
sorted by start. -/
theorem hyst_comb_inv (thOn thOff : Db) (hop ws len : ℕ) (hws : 1 ≤ ws) :
    ∀ (r : List Db) (idx : ℕ) (inTx : Bool) (s0 : ℕ),
      (inTx = true → s0 < idx) →
      (∀ j, j < idx + r.length → j * hop + ws ≤ len) →
      (∀ seg ∈ (hystGo thOn thOff hop ws idx inTx s0 r).1 ++
          (if (hystGo thOn thOff hop ws idx inTx s0 r).2.1 = true
           then [⟨(hystGo thOn thOff hop ws idx inTx s0 r).2.2 * hop, len⟩] else []),
        (seg.start_sample < seg.end_sample ∧ seg.end_sample ≤ len) ∧
        (inTx = true → s0 * hop ≤ seg.start_sample) ∧
        (inTx = false → idx * hop ≤ seg.start_sample)) ∧
      List.Pairwise (fun a b => a.start_sample ≤ b.start_sample)
        ((hystGo thOn thOff hop ws idx inTx s0 r).1 ++
          (if (hystGo thOn thOff hop ws idx inTx s0 r).2.1 = true
           then [⟨(hystGo thOn thOff hop ws idx inTx s0 r).2.2 * hop, len⟩] else [])) := by
  intro r
  induction r with
  | nil =>
    intro idx inTx s0 h1 h2
    cases inTx with
    | false => simp [hystGo]
    | true =>
      have hs0 : s0 < idx := h1 rfl
      have hb : s0 * hop + ws ≤ len := h2 s0 (by simpa using hs0)
      constructor
      · intro seg hseg
        have hseg' : seg = ⟨s0 * hop, len⟩ := by simpa [hystGo] using hseg
        subst hseg'
        refine ⟨⟨?_, ?_⟩, fun _ => Nat.le_refl _, fun hf => by simp at hf⟩
        · show s0 * hop < len
          omega
        · show len ≤ len
          exact Nat.le_refl _
      · simp [hystGo]
  | cons p rest ih =>
    intro idx inTx s0 h1 h2
    have h2' : ∀ j, j < (idx + 1) + rest.length → j * hop + ws ≤ len := by
      intro j hj
      refine h2 j ?_
      simp only [List.length_cons]
      omega
    by_cases hA : (!inTx && Db.lt thOn p) = true
    · have hfalse : inTx = false := by
        have hh : inTx = false ∧ Db.lt thOn p = true := by simpa using hA
        exact hh.1
      have hr := ih (idx + 1) true idx (fun _ => Nat.lt_succ_self idx) h2'
      rw [hystGo_cons_open thOn thOff hop ws idx inTx s0 p rest hA]
      refine ⟨fun seg hseg => ?_, hr.2⟩
      have h := hr.1 seg hseg
      have hlow : idx * hop ≤ seg.start_sample := h.2.1 rfl
      exact ⟨h.1, fun ht => by rw [hfalse] at ht; exact absurd ht (by simp),
        fun _ => hlow⟩
    · have hAf : (!inTx && Db.lt thOn p) = false := by
        revert hA
        cases (!inTx && Db.lt thOn p) <;> simp
      by_cases hB : (inTx && Db.lt p thOff) = true
      · have htrue : inTx = true := by
          have hh : inTx = true ∧ Db.lt p thOff = true := by simpa using hB
          exact hh.1
        have hs0 : s0 < idx := h1 htrue
        have hidx : idx * hop + ws ≤ len := by
          refine h2 idx ?_
          simp only [List.length_cons]
          omega
        have hr := ih (idx + 1) false s0 (fun h => by simp at h) h2'
        rw [hystGo_cons_close thOn thOff hop ws idx inTx s0 p rest hAf hB]
        simp only [List.cons_append]
        have hmul0 : s0 * hop ≤ idx * hop := Nat.mul_le_mul_right hop (Nat.le_of_lt hs0)
        have hmul1 : s0 * hop ≤ (idx + 1) * hop := Nat.mul_le_mul_right hop (by omega)
        constructor
        · intro seg hseg
          rcases List.mem_cons.mp hseg with hseg | hseg
          · subst hseg
            refine ⟨⟨?_, ?_⟩, fun _ => Nat.le_refl _,
              fun hf => by rw [htrue] at hf; exact absurd hf (by simp)⟩
            · show s0 * hop < idx * hop + ws
              omega
            · exact hidx
          · have h := hr.1 seg hseg
            have hlow : (idx + 1) * hop ≤ seg.start_sample := h.2.2 rfl
            exact ⟨h.1, fun _ => by omega,
              fun hf => by rw [htrue] at hf; exact absurd hf (by simp)⟩
        · refine List.pairwise_cons.mpr ⟨?_, hr.2⟩
          intro b hb
          have hlow : (idx + 1) * hop ≤ b.start_sample := (hr.1 b hb).2.2 rfl
          show s0 * hop ≤ b.start_sample
          omega
      · have hBf : (inTx && Db.lt p thOff) = false := by
          revert hB
          cases (inTx && Db.lt p thOff) <;> simp
        have hr := ih (idx + 1) inTx s0 (fun h => Nat.lt_succ_of_lt (h1 h)) h2'
        rw [hystGo_cons_stay thOn thOff hop ws idx inTx s0 p rest hAf hBf]
        refine ⟨fun seg hseg => ?_, hr.2⟩
        have h := hr.1 seg hseg
        refine ⟨h.1, fun ht => h.2.1 ht, fun hf => ?_⟩
        have hlow : (idx + 1) * hop ≤ seg.start_sample := h.2.2 hf
        have hmul1 : idx * hop ≤ (idx + 1) * hop := Nat.mul_le_mul_right hop (by omega)
        omega

/-- Unfolding of `detect_segments` on a non-empty profile. -/
theorem detect_segments_eq (dft : List (ℚ × ℚ) → List (ℚ × ℚ)) (l10 : ℚ → ℚ) (c2 : ℚ → ℚ)
    (samples : List IqSample) (ws : ℕ) (th : Db) (mind gap : ℕ) (q : Db) (qs : List Db)
    (hprof : calculate_peak_power_profile dft l10 c2 samples ws = some (q :: qs)) :
    detect_segments dft l10 c2 samples ws th mind gap =
      some ((merge_segments
        ((hystGo th (th.sub (Db.val 3)) (ws / 2) ws 0 false 0 (q :: qs)).1 ++
          (if (hystGo th (th.sub (Db.val 3)) (ws / 2) ws 0 false 0 (q :: qs)).2.1 = true
           then [⟨(hystGo th (th.sub (Db.val 3)) (ws / 2) ws 0 false 0 (q :: qs)).2.2 * (ws / 2),
                 samples.length⟩]
           else []))
        gap).filter fun s => mind ≤ s.duration_samples) := by
  simp [detect_segments, hprof]

/-- Post-processing tail of `detect_segments`: the merge pass followed by the
duration filter preserves validity and produces the gap separation. -/
theorem detect_tail (gap len mind : ℕ) (raw : List Segment)
    (hv : ∀ s ∈ raw, s.start_sample < s.end_sample ∧ s.end_sample ≤ len)
    (hp : List.Pairwise (fun a b => a.start_sample ≤ b.start_sample) raw) :
    (∀ x ∈ (merge_segments raw gap).filter (fun s => mind ≤ s.duration_samples),
      x.start_sample < x.end_sample ∧ x.end_sample ≤ len) ∧
    List.Pairwise (fun a b => a.end_sample + gap < b.start_sample)
      ((merge_segments raw gap).filter (fun s => mind ≤ s.duration_samples)) := by
  have hm := merge_segments_inv gap len raw hp hv
  constructor
  · intro x hx
    exact hm.1 x (List.mem_of_mem_filter hx)
  · exact hm.2.sublist (List.filter_sublist _)

/-- Invariants of every segment list returned by `detect_segments` (for a
window of at least two samples, where the profiler does not panic): segments
are non-degenerate, end inside the sample buffer, and consecutive segments are
separated by more than the merge gap. -/
theorem detect_inv (dft : List (ℚ × ℚ) → List (ℚ × ℚ)) (l10 : ℚ → ℚ) (c2 : ℚ → ℚ)
    (samples : List IqSample) (ws : ℕ) (th : Db) (mind gap : ℕ) (segs : List Segment)
    (h2 : 2 ≤ ws)
    (hdet : detect_segments dft l10 c2 samples ws th mind gap = some segs) :
    (∀ s ∈ segs, s.start_sample < s.end_sample ∧ s.end_sample ≤ samples.length) ∧
    List.Pairwise (fun a b => a.end_sample + gap < b.start_sample) segs := by
  have hws1 : 1 ≤ ws := by omega
  by_cases hlt : samples.length < ws
  · -- short branch: one-frame profile
    have hprof := (profile_framing dft l10 c2 samples ws h2).1 hlt
    rw [detect_segments_eq dft l10 c2 samples ws th mind gap _ [] hprof] at hdet
    have hsegs := Option.some.inj hdet
    by_cases hopen :
        Db.lt th (calculate_peak_power_db dft l10 samples (blackman_window c2 samples.length)) = true
    · have hne : samples ≠ [] := by
        intro hnil
        subst hnil
        rw [show calculate_peak_power_db dft l10 []
              (blackman_window c2 ([] : List IqSample).length) = Db.ninf from rfl,
            Db.not_lt_ninf] at hopen
        exact absurd hopen (by simp)
      have hlen : 0 < samples.length := List.length_pos.mpr hne
      have hcomb : (hystGo th (th.sub (Db.val 3)) (ws / 2) ws 0 false 0
            [calculate_peak_power_db dft l10 samples (blackman_window c2 samples.length)]).1 ++
          (if (hystGo th (th.sub (Db.val 3)) (ws / 2) ws 0 false 0
                [calculate_peak_power_db dft l10 samples (blackman_window c2 samples.length)]).2.1 = true
           then [⟨(hystGo th (th.sub (Db.val 3)) (ws / 2) ws 0 false 0
                [calculate_peak_power_db dft l10 samples (blackman_window c2 samples.length)]).2.2 * (ws / 2),
                samples.length⟩]
           else []) = [⟨0, samples.length⟩] := by
        simp [hystGo, hopen]
      rw [hcomb] at hsegs
      subst hsegs
      exact detect_tail gap samples.length mind [⟨0, samples.length⟩]
        (by intro s hs; simp only [List.mem_singleton] at hs; subst hs; exact ⟨hlen, Nat.le_refl _⟩)
        (by simp)
    · have hcomb : (hystGo th (th.sub (Db.val 3)) (ws / 2) ws 0 false 0
            [calculate_peak_power_db dft l10 samples (blackman_window c2 samples.length)]).1 ++
          (if (hystGo th (th.sub (Db.val 3)) (ws / 2) ws 0 false 0
                [calculate_peak_power_db dft l10 samples (blackman_window c2 samples.length)]).2.1 = true
           then [⟨(hystGo th (th.sub (Db.val 3)) (ws / 2) ws 0 false 0
                [calculate_peak_power_db dft l10 samples (blackman_window c2 samples.length)]).2.2 * (ws / 2),
                samples.length⟩]
           else []) = [] := by
        simp [hystGo, hopen]
      rw [hcomb] at hsegs
      subst hsegs
      exact detect_tail gap samples.length mind [] (by simp) (by simp)
  · -- long branch
    have hle : ws ≤ samples.length := Nat.not_lt.mp hlt
    have hprof := profile_long_eq dft l10 c2 samples ws h2 hle
    obtain ⟨q, qs, hqs⟩ : ∃ q qs, ((List.range ((samples.length - ws) / (ws / 2) + 1)).map fun i =>
        calculate_peak_power_db dft l10 ((samples.drop (i * (ws / 2))).take ws)
          (blackman_window c2 ws)) = q :: qs := by
      rcases hl : (List.range ((samples.length - ws) / (ws / 2) + 1)).map fun i =>
          calculate_peak_power_db dft l10 ((samples.drop (i * (ws / 2))).take ws)
            (blackman_window c2 ws) with _ | ⟨q, qs⟩
      · exact absurd (congrArg List.length hl) (by simp)
      · exact ⟨q, qs, rfl⟩
    rw [hqs] at hprof
    rw [detect_segments_eq dft l10 c2 samples ws th mind gap q qs hprof] at hdet
    have hsegs := Option.some.inj hdet
    subst hsegs
    have hinv := hyst_comb_inv th (th.sub (Db.val 3)) (ws / 2) ws samples.length hws1
      (q :: qs) 0 false 0 (fun h => by simp at h)
      (by
        intro j hj
        have hjlen : j < (samples.length - ws) / (ws / 2) + 1 := by
          have := congrArg List.length hqs
          simp only [List.length_map, List.length_range] at this
          omega
        exact frame_in_bounds hle rfl hjlen)
    exact detect_tail gap samples.length mind _
      (fun s hs => ((hinv.1 s hs).1)) hinv.2

/-- Claim C7: every segment list returned by `detect_segments` (frame length at
least 2) has non-degenerate segments (`start < end`), is sorted by start, and
after the merge pass consecutive segments are non-overlapping with a gap
strictly greater than `max_gap`. -/
theorem detect_segments_invariants (dft : List (ℚ × ℚ) → List (ℚ × ℚ)) (l10 : ℚ → ℚ)
    (c2 : ℚ → ℚ) (samples : List IqSample) (ws : ℕ) (th : Db) (mind gap : ℕ)
    (segs : List Segment) (h2 : 2 ≤ ws)
    (hdet : detect_segments dft l10 c2 samples ws th mind gap = some segs) :
    (∀ s ∈ segs, s.start_sample < s.end_sample) ∧
    List.Pairwise (fun a b => a.start_sample < b.start_sample) segs ∧
    List.Pairwise (fun a b => a.end_sample + gap < b.start_sample) segs := by
  have h := detect_inv dft l10 c2 samples ws th mind gap segs h2 hdet
  refine ⟨fun s hs => (h.1 s hs).1, ?_, h.2⟩
  refine List.Pairwise.imp_of_mem ?_ h.2
  intro a b ha hb hab
  have h1 := (h.1 a ha).1
  omega

/-- Sample buffer with two bursts, for concrete batch-mode witnesses. -/
def sampC7 : List IqSample :=
  [⟨0, 0⟩, ⟨0, 0⟩, ⟨30, 0⟩, ⟨0, 0⟩, ⟨0, 0⟩, ⟨0, 0⟩, ⟨0, 0⟩, ⟨30, 0⟩, ⟨0, 0⟩]

/-- Claim C7, witness: a concrete 9-sample buffer with two bursts yields two
segments that are non-degenerate and separated by more than the zero merge
gap. -/
theorem detect_segments_invariants_witness :
    2 ≤ 3 ∧
    detect_segments dftEx l10Ex c2Ex sampC7 3 (Db.val 0) 1 0 = some [⟨1, 5⟩, ⟨6, 9⟩] ∧
    List.Pairwise (fun a b => a.end_sample + 0 < b.start_sample)
      [(⟨1, 5⟩ : Segment), ⟨6, 9⟩] :=
  ⟨by decide, by with_unfolding_all decide,
   (detect_segments_invariants dftEx l10Ex c2Ex sampC7 3 (Db.val 0) 1 0 [⟨1, 5⟩, ⟨6, 9⟩]
      (by decide) (by with_unfolding_all decide)).2.2⟩

/-- Claim C6: padding clamps — every padded segment ends at or before the total
sample count, every input segment is mapped to exactly
`[start - padding, min (end + padding) total)` with saturating subtraction (so
a start can never be negative, whatever the padding), and for segments coming
out of batch detection the padded segment always satisfies
`start ≤ end ≤ samples.length`, so the slice `samples[start..end]` taken by
`process_file` (slicer.rs:103) is in bounds. -/
theorem add_padding_clamps :
    (∀ (segments : List Segment) (padding total : ℕ) (s : Segment),
      s ∈ add_padding segments padding total → s.end_sample ≤ total) ∧
    (∀ (segments : List Segment) (padding total : ℕ) (s : Segment), s ∈ segments →
      (⟨s.start_sample - padding, min (s.end_sample + padding) total⟩ : Segment) ∈
        add_padding segments padding total) ∧
    (∀ (dft : List (ℚ × ℚ) → List (ℚ × ℚ)) (l10 : ℚ → ℚ) (c2 : ℚ → ℚ)
      (samples : List IqSample) (ws : ℕ) (th : Db) (mind gap : ℕ)
      (segs : List Segment) (padding : ℕ) (s : Segment), 2 ≤ ws →
      detect_segments dft l10 c2 samples ws th mind gap = some segs →
      s ∈ add_padding segs padding samples.length →
      s.start_sample ≤ s.end_sample ∧ s.end_sample ≤ samples.length) := by
  refine ⟨?_, ?_, ?_⟩
  · intro segments padding total s hs
    obtain ⟨s0, _, rfl⟩ := List.mem_map.mp hs
    exact Nat.min_le_right _ _
  · intro segments padding total s hs
    exact List.mem_map_of_mem _ hs
  · intro dft l10 c2 samples ws th mind gap segs padding s h2 hdet hmem
    obtain ⟨s0, hs0, rfl⟩ := List.mem_map.mp hmem
    have h0 := (detect_inv dft l10 c2 samples ws th mind gap segs h2 hdet).1 s0 hs0
    constructor
    · have h1 : s0.end_sample ≤ min (s0.end_sample + padding) samples.length :=
        Nat.le_min.mpr ⟨by omega, h0.2⟩
      show s0.start_sample - padding ≤ min (s0.end_sample + padding) samples.length
      omega
    · exact Nat.min_le_right _ _

/-- Claim C6, witness: padding 7 on `[5,9)` with total 10 clamps to `[0,10)`;
the mapped form of the clamp; and padding 100 on a detected segment of the
9-sample buffer stays in bounds. -/
theorem add_padding_clamps_witness :
    (Segment.mk 0 10).end_sample ≤ 10 ∧
    (⟨5 - 7, min (9 + 7) 10⟩ : Segment) ∈ add_padding [⟨5, 9⟩] 7 10 ∧
    ((Segment.mk (1 - 100) (min (5 + 100) 9)).start_sample ≤
        (Segment.mk (1 - 100) (min (5 + 100) 9)).end_sample ∧
      (Segment.mk (1 - 100) (min (5 + 100) 9)).end_sample ≤ sampC7.length) :=
  ⟨add_padding_clamps.1 [⟨5, 9⟩] 7 10 ⟨0, 10⟩ (by decide),
   add_padding_clamps.2.1 [⟨5, 9⟩] 7 10 ⟨5, 9⟩ (by decide),
   add_padding_clamps.2.2 dftEx l10Ex c2Ex sampC7 3 (Db.val 0) 1 0 [⟨1, 5⟩, ⟨6, 9⟩] 100
     ⟨1 - 100, min (5 + 100) 9⟩ (by decide) (by with_unfolding_all decide)
     (by with_unfolding_all decide)⟩
